import Mathlib

/-!
Shallow embedding of the `vyukov_hash_map` from `src/xenium/vyukov_hash_map.hpp`
(jnumm/xenium). The provided sources contain the class definition header with its
inline constants, the trait `detail::vyukov_supported_type`, the inline bodies of
`begin`/`end`, and the iterator declaration; the out-of-line implementation files
(`xenium/impl/vyukov_hash_map.hpp`, `xenium/impl/vyukov_hash_map_traits.hpp`,
`xenium/utils.hpp`) are not part of the sources, so the behaviour of those
operations is modelled from the specification where needed; each such definition
carries a doc comment starting with the words Modelled from the spec.
-/

namespace xenium

/-- Fuel-bounded helper computing the number of binary digits of `x`. -/
def msb_aux : Nat → Nat → Nat
  | 0, _ => 0
  | fuel + 1, x => if x = 0 then 0 else msb_aux fuel (x / 2) + 1

/-- Modelled from the spec: `utils::find_last_bit_set` lives in `xenium/utils.hpp`,
which is not among the provided sources. It returns the 1-based index of the most
significant set bit of its argument (0 for 0), which is the meaning the spec's
documented layout requires (two item-counter bits for an inline capacity of 3). -/
def find_last_bit_set (x : Nat) : Nat := msb_aux x x

/-- `static constexpr std::uint32_t bucket_to_extension_ratio = 128;` (header line 159). -/
def bucket_to_extension_ratio : Nat := 128

/-- `static constexpr std::uint32_t bucket_item_count = 3;` (header line 160). -/
def bucket_item_count : Nat := 3

/-- `static constexpr std::uint32_t extension_item_count = 10;` (header line 161). -/
def extension_item_count : Nat := 10

/-- `item_counter_bits = utils::find_last_bit_set(bucket_item_count);` (header line 163). -/
def item_counter_bits : Nat := find_last_bit_set bucket_item_count

/-- `lock_bit = 2 * item_counter_bits + 1;` (header line 164). -/
def lock_bit : Nat := 2 * item_counter_bits + 1

/-- `version_shift = lock_bit;` (header line 165). -/
def version_shift : Nat := lock_bit

/-- `lock = 1u << (lock_bit - 1);` (header line 167). -/
def lock : Nat := 1 <<< (lock_bit - 1)

/-- `version_inc = 1ul << lock_bit;` (header line 168). -/
def version_inc : Nat := 1 <<< lock_bit

/-- `item_count_mask = (1u << item_counter_bits) - 1;` (header line 170). -/
def item_count_mask : Nat := (1 <<< item_counter_bits) - 1

/-- `delete_item_mask = item_count_mask << item_counter_bits;` (header line 171). -/
def delete_item_mask : Nat := item_count_mask <<< item_counter_bits

/-- A compile-time description of a candidate key or value type: whether it is a
trivial type, and its size in bytes. -/
structure TypeDesc where
  isTrivial : Bool
  size : Nat
deriving DecidableEq

/-- A candidate `Key`/`Value` argument of the map template: either a plain type, or a
`managed_ptr<T, Reclaimer>` where the recorded flag says whether `T` derives from
`Reclaimer::enable_concurrent_ptr<T>`. -/
inductive CandidateType where
  | plain (d : TypeDesc)
  | managedPtr (derives : Bool)
deriving DecidableEq

/-- `detail::vyukov_supported_type<T>::value` (header lines 52-63): the primary
template yields `std::is_trivial<T>::value && (sizeof(T) == 4 || sizeof(T) == 8)`;
the `managed_ptr` specialisation yields `true`. -/
def vyukov_supported_type : CandidateType → Bool
  | .plain d => d.isTrivial && (d.size == 4 || d.size == 8)
  | .managedPtr _ => true

/-- The `static_assert` inside the `managed_ptr` specialisation (header lines 59-61):
instantiating the trait for `managed_ptr<T, Reclaimer>` fails to compile unless `T`
derives from `Reclaimer::enable_concurrent_ptr<T>`. Plain types always instantiate. -/
def instantiation_compiles : CandidateType → Bool
  | .plain _ => true
  | .managedPtr derives => derives

/-- Modelled from the spec: a key or value type is accepted exactly when the traits
instantiation compiles and the trait reports the type as supported; an unsupported
fixed-width form must be rejected before any instance is constructed (the rejection
itself happens in `impl/vyukov_hash_map_traits.hpp`, which is not among the provided
sources). -/
def accepted (t : CandidateType) : Bool := instantiation_compiles t && vyukov_supported_type t

/-- Restatement of the spec's acceptance condition, for comparison with `accepted`:
a trivial type of size 4 or 8 bytes, or a `managed_ptr` whose pointee derives from
the reclaimer's `enable_concurrent_ptr` base. -/
def spec_accepted : CandidateType → Bool
  | .plain d => d.isTrivial && (d.size == 4 || d.size == 8)
  | .managedPtr derives => derives

/-- The special member functions of `vyukov_hash_map::iterator` as declared in the
header (lines 196-203): move construction and move assignment defaulted, copy
construction and copy assignment deleted. -/
structure SpecialMembers where
  moveConstructorDefaulted : Bool
  moveAssignmentDefaulted : Bool
  copyConstructorDeleted : Bool
  copyAssignmentDeleted : Bool
deriving DecidableEq

/-- Transcription of header lines 199-203 for `vyukov_hash_map::iterator`. -/
def iterator_special_members : SpecialMembers :=
  ⟨true, true, true, true⟩

/-! ## The generation (block) model

A generation ("block") is an array of buckets; each bucket stores its entries
(inline slots followed by the overflow chain — lookups scan both, and the spec
leaves chain order unspecified, so a bucket is modelled as one entry list).
Keys and values are the fixed-width integers the map supports. -/

abbrev Key := Nat
abbrev Value := Nat

/-- One generation of the table: its bucket count and its buckets. -/
structure Gen where
  bucket_count : Nat
  buckets : List (List (Key × Value))
deriving DecidableEq

/-- The bucket index of a key: its hash reduced modulo the bucket count (the code
masks with the power-of-two bucket count, which is the same reduction). -/
def bucketIdx (h : Key → Nat) (n : Nat) (k : Key) : Nat := h k % n

/-- The bucket at index `i` (empty when out of range). -/
def getBucket (m : Gen) (i : Nat) : List (Key × Value) := m.buckets.getD i []

/-- Scan a bucket (inline slots, then overflow chain) for a key. -/
def findInBucket (l : List (Key × Value)) (k : Key) : Option Value :=
  (l.find? (fun e => e.1 == k)).map (fun e => e.2)

/-- Modelled from the spec: `try_get_value` resolves the key to its bucket and scans
inline slots then the overflow chain, returning the found value, if any
(`bool try_get_value(const key_type&, accessor&) const`, header line 133; body in
`impl/vyukov_hash_map.hpp`, not among the provided sources). -/
def try_get_value (h : Key → Nat) (m : Gen) (k : Key) : Option Value :=
  findInBucket (getBucket m (bucketIdx h m.bucket_count k)) k

/-- Modelled from the spec: `contains` is the lookup without extracting the value
(`bool contains(const key_type&)`, header line 135; body not among the sources). -/
def contains (h : Key → Nat) (m : Gen) (k : Key) : Bool :=
  (try_get_value h m k).isSome

/-- Modelled from the spec: `emplace` locks the key's bucket, scans inline slots and
overflow chain; if the key is present it reports a duplicate with no mutation,
otherwise it stores the new entry in the bucket (inline slot or overflow chain; the
spec leaves the position in the chain open) and reports success (`bool emplace`,
header line 118; body not among the sources). Capacity bookkeeping does not affect
membership; growth is modelled as a separate step that may be interleaved anywhere. -/
def emplace (h : Key → Nat) (m : Gen) (k : Key) (v : Value) : Gen × Bool :=
  let i := bucketIdx h m.bucket_count k
  let b := getBucket m i
  if (b.find? (fun e => e.1 == k)).isSome then (m, false)
  else (⟨m.bucket_count, m.buckets.set i (b ++ [(k, v)])⟩, true)

/-- Modelled from the spec: `erase` locks the key's bucket, scans it, and if the key
is found removes that entry (clearing the inline slot, or unlinking the overflow
node); otherwise it reports not-found with no mutation (`bool erase(const key_type&)`,
header line 128; body not among the sources). -/
def erase (h : Key → Nat) (m : Gen) (k : Key) : Gen × Bool :=
  let i := bucketIdx h m.bucket_count k
  let b := getBucket m i
  if (b.find? (fun e => e.1 == k)).isSome then
    (⟨m.bucket_count, m.buckets.set i (b.eraseP (fun e => e.1 == k))⟩, true)
  else (m, false)

/-- Modelled from the spec: `extract` is `erase` that also hands the removed value
out through the accessor (`bool extract(const key_type&, accessor&)`, header
line 126; body not among the sources). `none` means the accessor was not populated. -/
def extract (h : Key → Nat) (m : Gen) (k : Key) : Gen × Option Value :=
  let i := bucketIdx h m.bucket_count k
  let b := getBucket m i
  match findInBucket b k with
  | some v => (⟨m.bucket_count, m.buckets.set i (b.eraseP (fun e => e.1 == k))⟩, some v)
  | none => (m, none)

/-- Modelled from the spec: `grow` allocates a new generation with double the bucket
count and, for every entry in every bucket of the old generation, recomputes its
bucket index under the new bucket count and inserts it there — a deterministic
re-partition by the same hash value (`void grow(bucket&, bucket_state)`, header
line 179; body not among the sources). -/
def grow (h : Key → Nat) (m : Gen) : Gen :=
  ⟨2 * m.bucket_count,
   (List.range (2 * m.bucket_count)).map (fun i =>
     (getBucket m (i % m.bucket_count)).filter (fun e => h e.1 % (2 * m.bucket_count) == i))⟩

/-- Modelled from the spec: `allocate_block(bucket_count)` allocates a generation of
`bucket_count` empty buckets (`block* allocate_block(std::uint32_t)`, header
line 176; body not among the sources). -/
def allocate_block (n : Nat) : Gen := ⟨n, List.replicate n []⟩

/-- Modelled from the spec: the default-constructed map allocates the initial
generation with the default capacity of 128 buckets
(`vyukov_hash_map(std::size_t initial_capacity = 128)`, header line 109). -/
def initial_block : Gen := allocate_block 128

/-- All entries of a generation, across all buckets. -/
def allEntries (m : Gen) : List (Key × Value) := m.buckets.flatten

/-- The keys of all entries of a generation. -/
def allKeys (m : Gen) : List Key := (allEntries m).map Prod.fst

/-- Well-formedness of a generation: the bucket array has exactly `bucket_count`
buckets, the bucket count is positive, every entry sits in the bucket its hash
selects, and no bucket holds two entries with the same key. -/
def WF (h : Key → Nat) (m : Gen) : Prop :=
  m.buckets.length = m.bucket_count ∧
  0 < m.bucket_count ∧
  (∀ i, i < m.bucket_count → ∀ e ∈ getBucket m i, bucketIdx h m.bucket_count e.1 = i) ∧
  (∀ i, i < m.bucket_count → ((getBucket m i).map Prod.fst).Nodup)

/-- One step of a client history: an insert, a removal (by `erase` or by `extract`),
or a growth of the table. Growth steps may appear anywhere in the history, which
covers every possible moment at which a full bucket forces the map to grow. -/
inductive Op where
  | emplaceOp (k : Key) (v : Value)
  | eraseOp (k : Key)
  | extractOp (k : Key)
  | growOp
deriving DecidableEq

/-- Apply one history step to the generation. -/
def runOp (h : Key → Nat) (m : Gen) : Op → Gen
  | .emplaceOp k v => (emplace h m k v).1
  | .eraseOp k => (erase h m k).1
  | .extractOp k => (extract h m k).1
  | .growOp => grow h m

/-- Apply a whole history to the generation. -/
def run (h : Key → Nat) (m : Gen) (ops : List Op) : Gen := ops.foldl (runOp h) m

/-- The specification-level effect of one history step on the membership of one key:
inserts make the key present, removals make it absent, growth changes nothing. -/
def specMemStep (k : Key) (b : Bool) : Op → Bool
  | .emplaceOp k2 _ => b || (k2 == k)
  | .eraseOp k2 => b && !(k2 == k)
  | .extractOp k2 => b && !(k2 == k)
  | .growOp => b

/-- The specification-level membership of key `k` after a history, starting from
membership `b`. -/
def specMem (k : Key) (b : Bool) (ops : List Op) : Bool := ops.foldl (specMemStep k) b

/-- Run a history while logging which inserts returned `true` and which removals
succeeded (state: generation, successfully inserted keys, successfully removed keys). -/
def runLogStep (h : Key → Nat) : Gen × List Key × List Key → Op → Gen × List Key × List Key
  | (m, ins, rem), .emplaceOp k v =>
      let r := emplace h m k v
      (r.1, if r.2 then ins ++ [k] else ins, rem)
  | (m, ins, rem), .eraseOp k =>
      let r := erase h m k
      (r.1, ins, if r.2 then rem ++ [k] else rem)
  | (m, ins, rem), .extractOp k =>
      let r := extract h m k
      (r.1, ins, if r.2.isSome then rem ++ [k] else rem)
  | (m, ins, rem), .growOp => (grow h m, ins, rem)

/-- Run a history from a generation with an empty log. -/
def runLog (h : Key → Nat) (m : Gen) (ops : List Op) : Gen × List Key × List Key :=
  ops.foldl (runLogStep h) (m, [], [])

/-! ## The iterator model -/

/-- The state of a `vyukov_hash_map::iterator` as far as guard and lock ownership
are concerned: the guarded generation (`guarded_block block`, `none` when no guard
is held), the locked bucket it is positioned in (`none` when unpositioned), and the
index within the bucket. -/
structure Iterator where
  block : Option Gen
  current_bucket : Option Nat
  index : Nat
deriving DecidableEq

/-- Modelled from the spec: the default-constructed iterator is unpositioned and
holds no lock and no guard (`iterator()`, header line 196; body not among the
sources). -/
def iterator_default : Iterator := ⟨none, none, 0⟩

/-- The first index `j` with `i ≤ j < bucket_count` whose bucket is non-empty. -/
def first_nonempty_from (m : Gen) (i : Nat) : Option Nat :=
  ((List.range m.bucket_count).drop i).find? (fun j => !(getBucket m j).isEmpty)

/-- Modelled from the spec: `move_to_next_bucket` releases the current bucket's lock
and locks the next bucket in index order, skipping empty ones, keeping the same
generation guard; moving past the last bucket makes the iterator the unpositioned
end iterator, releasing lock and guard (`void move_to_next_bucket()`, header
line 222; body not among the sources). -/
def move_to_next_bucket (m : Gen) (it : Iterator) : Iterator :=
  match it.current_bucket with
  | none => it
  | some i =>
    match first_nonempty_from m (i + 1) with
    | some j => ⟨it.block, some j, 0⟩
    | none => iterator_default

/-- `begin()` (header lines 139-145): acquire a guard on the current generation and
lock bucket 0 (`lock_bucket(0, result.block, result.current_bucket_state)`, whose
body is not among the sources, is modelled from the spec as locking the bucket the
hash 0 selects and storing the guard); if that bucket's item count is zero, advance
to the next non-empty bucket. -/
def begin (m : Gen) : Iterator :=
  let it : Iterator := ⟨some m, some 0, 0⟩
  if (getBucket m 0).isEmpty then move_to_next_bucket m it else it

/-- `end()` (header line 146): returns a default-constructed iterator. -/
def endIter : Iterator := iterator_default

/-! ## Lock ownership of iterator objects

The header deletes the iterator's copy constructor and copy assignment and
defaults its move operations (lines 199-203). The population of live iterator
objects is modelled as a list, each element recording the bucket lock that
iterator holds (`none` when unpositioned). The permitted object operations are
exactly those the header declares: default construction, destruction, move
construction and move assignment; copying is absent because it is deleted. -/

/-- One permitted object-lifetime step on the population of live iterators.
A move leaves the source unpositioned (its guard and lock ownership transfer);
move assignment additionally releases whatever the target held before. -/
inductive IterStep : List (Option Nat) → List (Option Nat) → Prop
  | defaultCtor (s : List (Option Nat)) :
      IterStep s (none :: s)
  | destroy (s1 s2 : List (Option Nat)) (x : Option Nat) :
      IterStep (s1 ++ x :: s2) (s1 ++ s2)
  | moveCtor (s1 s2 : List (Option Nat)) (x : Option Nat) :
      IterStep (s1 ++ x :: s2) (x :: (s1 ++ none :: s2))
  | moveAssignRight (s1 s2 s3 : List (Option Nat)) (x y : Option Nat) :
      IterStep (s1 ++ x :: (s2 ++ y :: s3)) (s1 ++ none :: (s2 ++ x :: s3))
  | moveAssignLeft (s1 s2 s3 : List (Option Nat)) (x y : Option Nat) :
      IterStep (s1 ++ y :: (s2 ++ x :: s3)) (s1 ++ x :: (s2 ++ none :: s3))

/-- No bucket lock is held by two live iterator objects at once. -/
def LockInv (s : List (Option Nat)) : Prop := (s.filterMap id).Nodup

/-! ## Theorems -/

theorem count_filterMap_id (a : Nat) (s : List (Option Nat)) :
    (s.filterMap id).count a = s.count (some a) := by
  induction s with
  | nil => rfl
  | cons x tl ih =>
      cases x with
      | none => simpa [List.count_cons] using ih
      | some b => simp [List.count_cons, ih]

theorem nodup_filterMap_id_iff (s : List (Option Nat)) :
    (s.filterMap id).Nodup ↔ ∀ a : Nat, s.count (some a) ≤ 1 := by
  rw [List.nodup_iff_count_le_one]
  constructor
  · intro h a
    rw [← count_filterMap_id]
    exact h a
  · intro h a
    rw [count_filterMap_id]
    exact h a

/-- C6: the bucket state is one packed atomic word whose fields are pairwise
disjoint bit ranges: the inline item count in bits 0-1 (mask 0x3), the
tombstoned-overflow count in bits 2-3 (mask 0xC), the lock flag at bit 4, and the
version counter from bit 5 upward, one version increment adding 2^5. -/
theorem c6_packed_bucket_state_layout :
    item_count_mask = 0x3 ∧
    delete_item_mask = 0xC ∧
    lock = 2 ^ 4 ∧
    version_shift = 5 ∧
    version_inc = 2 ^ 5 ∧
    item_count_mask &&& delete_item_mask = 0 ∧
    item_count_mask &&& lock = 0 ∧
    delete_item_mask &&& lock = 0 ∧
    (item_count_mask ||| delete_item_mask ||| lock) < version_inc := by
  decide

/-- C8: each bucket has 3 inline slots, each extension slab has 10 overflow slots,
and slabs cover buckets at the fixed ratio of one slab per 128 buckets. -/
theorem c8_fixed_capacities :
    bucket_item_count = 3 ∧ extension_item_count = 10 ∧
    bucket_to_extension_ratio = 128 := by
  decide

/-- C7: a key or value type is accepted exactly when it is a trivial type of size
4 or 8 bytes, or a `managed_ptr` whose pointee derives from the reclaimer's
`enable_concurrent_ptr` base; everything else is rejected at compile time. -/
theorem c7_supported_types (t : CandidateType) :
    accepted t = spec_accepted t := by
  cases t with
  | plain d => rfl
  | managedPtr b => cases b <;> rfl

/-- C5: the default-constructed map starts with 128 buckets, the bucket count after
any number of growths is the power of two 2 ^ (7 + g), and every growth exactly
doubles the bucket count of the generation it supersedes. -/
theorem c5_bucket_count_power_of_two (h : Key → Nat) (g : Nat) :
    initial_block.bucket_count = 128 ∧
    ((grow h)^[g] initial_block).bucket_count = 2 ^ (7 + g) ∧
    (∀ m : Gen, (grow h m).bucket_count = 2 * m.bucket_count) := by
  refine ⟨rfl, ?_, fun m => rfl⟩
  induction g with
  | zero => rfl
  | succ n ih =>
      rw [Function.iterate_succ_apply']
      show 2 * ((grow h)^[n] initial_block).bucket_count = _
      rw [ih, Nat.add_succ, Nat.pow_succ, Nat.mul_comm]

theorem first_nonempty_from_zero (m : Gen) (hlen : m.buckets.length = m.bucket_count) :
    first_nonempty_from m 0 =
      (if (getBucket m 0).isEmpty then first_nonempty_from m 1 else some 0) := by
  unfold first_nonempty_from
  cases hn : m.bucket_count with
  | zero =>
      have hb : m.buckets = [] := by
        have : m.buckets.length = 0 := hlen.trans hn
        simpa using this
      simp [getBucket, hb]
  | succ k =>
      rw [List.range_succ_eq_map]
      by_cases he : (getBucket m 0).isEmpty
      · simp [List.find?_cons, he]
      · simp [List.find?_cons, he]

/-- C9: `begin()` acquires a guard on the generation and locks bucket 0, and if that
bucket is empty immediately advances, so it ends up positioned (with its lock and
guard) on the first non-empty bucket, or as the unpositioned end iterator holding
neither lock nor guard when there is none; `end()` is the default-constructed
iterator holding no lock and no guard. -/
theorem c9_begin_end (m : Gen) (hlen : m.buckets.length = m.bucket_count) :
    (begin m).current_bucket = first_nonempty_from m 0 ∧
    (begin m).index = 0 ∧
    (begin m).block = (if (first_nonempty_from m 0).isSome then some m else none) ∧
    endIter.current_bucket = none ∧ endIter.block = none := by
  rw [first_nonempty_from_zero m hlen]
  unfold begin move_to_next_bucket
  by_cases he : (getBucket m 0).isEmpty
  · simp only [he, if_true]
    cases hj : first_nonempty_from m 1 with
    | some j => simp [hj, endIter, iterator_default]
    | none => simp [hj, endIter, iterator_default]
  · simp [he, endIter, iterator_default]

/-- Witness for `c9_begin_end` at a concrete generation with an entry in bucket 0. -/
theorem c9_begin_end_witness :
    (Gen.mk 2 [[(0, 5)], []]).buckets.length = (Gen.mk 2 [[(0, 5)], []]).bucket_count ∧
    ((begin (Gen.mk 2 [[(0, 5)], []])).current_bucket =
        first_nonempty_from (Gen.mk 2 [[(0, 5)], []]) 0 ∧
      (begin (Gen.mk 2 [[(0, 5)], []])).index = 0 ∧
      (begin (Gen.mk 2 [[(0, 5)], []])).block =
        (if (first_nonempty_from (Gen.mk 2 [[(0, 5)], []]) 0).isSome
          then some (Gen.mk 2 [[(0, 5)], []]) else none) ∧
      endIter.current_bucket = none ∧ endIter.block = none) :=
  ⟨rfl, c9_begin_end (Gen.mk 2 [[(0, 5)], []]) rfl⟩

/-- C10: the iterator's copy constructor and copy assignment are deleted while its
move operations are defaulted, and under the permitted object operations (default
construction, destruction, move construction, move assignment — copying being
unavailable) a bucket lock is never held by two live iterator objects at once. -/
theorem c10_iterator_move_only (s t : List (Option Nat)) (hstep : IterStep s t)
    (hinv : LockInv s) :
    iterator_special_members = SpecialMembers.mk true true true true ∧ LockInv t := by
  refine ⟨rfl, ?_⟩
  rw [LockInv, nodup_filterMap_id_iff] at hinv ⊢
  cases hstep with
  | defaultCtor s =>
      intro a
      have ha := hinv a
      simp [List.count_cons] at ha ⊢
      omega
  | destroy s1 s2 x =>
      intro a
      have ha := hinv a
      simp [List.count_append, List.count_cons] at ha ⊢
      split_ifs at ha ⊢ <;> omega
  | moveCtor s1 s2 x =>
      intro a
      have ha := hinv a
      simp [List.count_append, List.count_cons] at ha ⊢
      split_ifs at ha ⊢ <;> omega
  | moveAssignRight s1 s2 s3 x y =>
      intro a
      have ha := hinv a
      simp [List.count_append, List.count_cons] at ha ⊢
      split_ifs at ha ⊢ <;> omega
  | moveAssignLeft s1 s2 s3 x y =>
      intro a
      have ha := hinv a
      simp [List.count_append, List.count_cons] at ha ⊢
      split_ifs at ha ⊢ <;> omega

/-- Witness for `c10_iterator_move_only`: move-constructing from a positioned
iterator transfers its lock and keeps the single-owner invariant. -/
theorem c10_iterator_move_only_witness :
    iterator_special_members = SpecialMembers.mk true true true true ∧
    LockInv [some 0, none] :=
  c10_iterator_move_only [some 0] [some 0, none]
    (IterStep.moveCtor [] [] (some 0)) (by unfold LockInv; decide)

theorem getBucket_lt (m : Gen) (i : Nat) (hi : i < m.buckets.length) :
    getBucket m i = m.buckets[i] := by
  rw [getBucket, List.getD_eq_getElem?_getD, List.getElem?_eq_getElem hi, Option.getD_some]

theorem mem_allEntries_of_mem_getBucket (m : Gen) (i : Nat) (hi : i < m.buckets.length)
    {e : Key × Value} (he : e ∈ getBucket m i) : e ∈ allEntries m := by
  rw [allEntries, List.mem_flatten]
  refine ⟨m.buckets[i], List.getElem_mem hi, ?_⟩
  rwa [getBucket_lt m i hi] at he

theorem mem_allKeys_of_mem_getBucket (m : Gen) (i : Nat) (hi : i < m.buckets.length)
    {e : Key × Value} (he : e ∈ getBucket m i) : e.1 ∈ allKeys m :=
  List.mem_map_of_mem Prod.fst (mem_allEntries_of_mem_getBucket m i hi he)

theorem contains_def (h : Key → Nat) (m : Gen) (k : Key) :
    contains h m k =
      ((getBucket m (bucketIdx h m.bucket_count k)).find? (fun e => e.1 == k)).isSome := by
  rw [contains, try_get_value, findInBucket]
  cases (getBucket m (bucketIdx h m.bucket_count k)).find? (fun e => e.1 == k) <;> rfl

theorem find?_isSome_of_mem_allKeys (h : Key → Nat) (m : Gen) (k : Key)
    (hwf : WF h m) (hk : k ∈ allKeys m) :
    ((getBucket m (bucketIdx h m.bucket_count k)).find? (fun e => e.1 == k)).isSome = true := by
  obtain ⟨hlen, _hpos, hplace, _hnd⟩ := hwf
  rw [allKeys, List.mem_map] at hk
  obtain ⟨e, heall, hek⟩ := hk
  rw [allEntries, List.mem_flatten] at heall
  obtain ⟨l, hl, hel⟩ := heall
  rw [List.mem_iff_getElem] at hl
  obtain ⟨i, hilt, hleq⟩ := hl
  have heb : e ∈ getBucket m i := by
    rw [getBucket_lt m i hilt, hleq]; exact hel
  have hplaced := hplace i (hlen ▸ hilt) e heb
  rw [List.find?_isSome]
  refine ⟨e, ?_, by simp [hek]⟩
  have hidx : bucketIdx h m.bucket_count k = i := by rw [← hek]; exact hplaced
  rw [hidx]
  exact heb

theorem find?_eq_none_of_not_mem_allKeys (h : Key → Nat) (m : Gen) (k : Key)
    (hwf : WF h m) (hk : k ∉ allKeys m) :
    (getBucket m (bucketIdx h m.bucket_count k)).find? (fun e => e.1 == k) = none := by
  obtain ⟨hlen, hpos, _, _⟩ := hwf
  rw [List.find?_eq_none]
  intro e he hbe
  apply hk
  have hek : e.1 = k := by simpa using hbe
  have hi : bucketIdx h m.bucket_count k < m.buckets.length := by
    rw [hlen]; exact Nat.mod_lt _ hpos
  rw [← hek]
  exact mem_allKeys_of_mem_getBucket m _ hi he

/-- C3: `emplace` on a key that is already present returns `false` and performs no
mutation at all: the resulting generation is exactly the old one, so the stored
value for the key and all other map state are unchanged. -/
theorem c3_emplace_duplicate (h : Key → Nat) (m : Gen) (k : Key) (v : Value)
    (hwf : WF h m) (hk : k ∈ allKeys m) :
    emplace h m k v = (m, false) := by
  simp [emplace, find?_isSome_of_mem_allKeys h m k hwf hk]

/-- Witness for `c3_emplace_duplicate` on a one-bucket generation holding key 0. -/
theorem c3_emplace_duplicate_witness :
    WF (fun a => a) (Gen.mk 1 [[(0, 7)]]) ∧ 0 ∈ allKeys (Gen.mk 1 [[(0, 7)]]) ∧
    emplace (fun a => a) (Gen.mk 1 [[(0, 7)]]) 0 9 = (Gen.mk 1 [[(0, 7)]], false) := by
  have hwf : WF (fun a => a) (Gen.mk 1 [[(0, 7)]]) := by
    simp only [WF]; decide
  have hk : (0 : Key) ∈ allKeys (Gen.mk 1 [[(0, 7)]]) := by decide
  exact ⟨hwf, hk, c3_emplace_duplicate (fun a => a) (Gen.mk 1 [[(0, 7)]]) 0 9 hwf hk⟩

/-- C4: on a key absent from the map, `erase`, `extract`, `try_get_value` and
`contains` all return false, perform no mutation, and populate no output accessor. -/
theorem c4_absent_key (h : Key → Nat) (m : Gen) (k : Key)
    (hwf : WF h m) (hk : k ∉ allKeys m) :
    erase h m k = (m, false) ∧ extract h m k = (m, none) ∧
    try_get_value h m k = none ∧ contains h m k = false := by
  have hf := find?_eq_none_of_not_mem_allKeys h m k hwf hk
  refine ⟨?_, ?_, ?_, ?_⟩
  · simp [erase, hf]
  · simp [extract, findInBucket, hf]
  · simp [try_get_value, findInBucket, hf]
  · simp [contains, try_get_value, findInBucket, hf]

/-- Witness for `c4_absent_key`: key 0 is absent from a one-bucket generation
holding only key 1. -/
theorem c4_absent_key_witness :
    WF (fun a => a) (Gen.mk 1 [[(1, 7)]]) ∧ 0 ∉ allKeys (Gen.mk 1 [[(1, 7)]]) ∧
    (erase (fun a => a) (Gen.mk 1 [[(1, 7)]]) 0 = (Gen.mk 1 [[(1, 7)]], false) ∧
      extract (fun a => a) (Gen.mk 1 [[(1, 7)]]) 0 = (Gen.mk 1 [[(1, 7)]], none) ∧
      try_get_value (fun a => a) (Gen.mk 1 [[(1, 7)]]) 0 = none ∧
      contains (fun a => a) (Gen.mk 1 [[(1, 7)]]) 0 = false) := by
  have hwf : WF (fun a => a) (Gen.mk 1 [[(1, 7)]]) := by
    simp only [WF]; decide
  have hk : (0 : Key) ∉ allKeys (Gen.mk 1 [[(1, 7)]]) := by decide
  exact ⟨hwf, hk, c4_absent_key (fun a => a) (Gen.mk 1 [[(1, 7)]]) 0 hwf hk⟩

theorem getBucket_set_self (m : Gen) (c i : Nat) (b : List (Key × Value))
    (hi : i < m.buckets.length) :
    getBucket (Gen.mk c (m.buckets.set i b)) i = b := by
  rw [getBucket]
  simp [List.getD_eq_getElem?_getD, List.getElem?_set, hi]

theorem getBucket_set_ne (m : Gen) (c i j : Nat) (b : List (Key × Value))
    (hij : i ≠ j) :
    getBucket (Gen.mk c (m.buckets.set i b)) j = getBucket m j := by
  rw [getBucket, getBucket]
  simp [List.getD_eq_getElem?_getD, List.getElem?_set, hij]

theorem find?_filter_of_imp {α : Type} (p q : α → Bool) (l : List α)
    (hpq : ∀ e, q e = true → p e = true) :
    (l.filter p).find? q = l.find? q := by
  induction l with
  | nil => rfl
  | cons a t ih =>
      by_cases hq : q a = true
      · rw [List.filter_cons, if_pos (hpq a hq), List.find?_cons_of_pos _ hq,
          List.find?_cons_of_pos _ hq]
      · by_cases hp : p a = true
        · rw [List.filter_cons, if_pos hp, List.find?_cons_of_neg _ hq,
            List.find?_cons_of_neg _ hq, ih]
        · rw [List.filter_cons, if_neg hp, List.find?_cons_of_neg _ hq, ih]

theorem find?_eraseP_of_ne {α : Type} (p q : α → Bool) (l : List α)
    (hq : ∀ e, q e = true → p e = false) :
    (l.eraseP p).find? q = l.find? q := by
  induction l with
  | nil => rfl
  | cons a t ih =>
      by_cases hp : p a = true
      · have hqa : ¬ q a = true := fun hqa => absurd hp (by simp [hq a hqa])
        rw [List.eraseP_cons_of_pos hp, List.find?_cons_of_neg _ hqa]
      · by_cases hqa : q a = true
        · rw [List.eraseP_cons_of_neg hp, List.find?_cons_of_pos _ hqa,
            List.find?_cons_of_pos _ hqa]
        · rw [List.eraseP_cons_of_neg hp, List.find?_cons_of_neg _ hqa,
            List.find?_cons_of_neg _ hqa, ih]

theorem find?_eraseP_key (k : Key) (l : List (Key × Value))
    (hnd : (l.map Prod.fst).Nodup) :
    (l.eraseP (fun e => e.1 == k)).find? (fun e => e.1 == k) = none := by
  induction l with
  | nil => rfl
  | cons a t ih =>
      rw [List.map_cons, List.nodup_cons] at hnd
      obtain ⟨hna, hnt⟩ := hnd
      by_cases hp : (a.1 == k) = true
      · rw [List.eraseP_cons_of_pos (p := fun e : Key × Value => e.1 == k) hp, List.find?_eq_none]
        intro e he hbe
        apply hna
        have h1 : a.1 = k := by simpa using hp
        have h2 : e.1 = k := by simpa using hbe
        rw [h1, ← h2]
        exact List.mem_map_of_mem Prod.fst he
      · rw [List.eraseP_cons_of_neg (p := fun e : Key × Value => e.1 == k) hp,
          List.find?_cons_of_neg (p := fun e : Key × Value => e.1 == k) _ hp]
        exact ih hnt

theorem WF_emplace (h : Key → Nat) (m : Gen) (k : Key) (v : Value) (hwf : WF h m) :
    WF h (emplace h m k v).1 := by
  by_cases hdup :
      ((getBucket m (bucketIdx h m.bucket_count k)).find? (fun e => e.1 == k)).isSome = true
  · simpa [emplace, hdup] using hwf
  · obtain ⟨hlen, hpos, hplace, hnd⟩ := hwf
    have hik : bucketIdx h m.bucket_count k < m.bucket_count := Nat.mod_lt _ hpos
    have hil : bucketIdx h m.bucket_count k < m.buckets.length := by rw [hlen]; exact hik
    have hres : (emplace h m k v).1 =
        Gen.mk m.bucket_count
          (m.buckets.set (bucketIdx h m.bucket_count k)
            (getBucket m (bucketIdx h m.bucket_count k) ++ [(k, v)])) := by
      simp [emplace, hdup]
    rw [hres]
    refine ⟨by simp [hlen], hpos, ?_, ?_⟩
    · intro j hj e he
      by_cases hji : j = bucketIdx h m.bucket_count k
      · subst hji
        rw [getBucket_set_self m _ _ _ hil] at he
        rcases List.mem_append.mp he with h1 | h1
        · exact hplace _ hj e h1
        · have he2 : e = (k, v) := by simpa using h1
          subst he2
          rfl
      · rw [getBucket_set_ne m _ _ _ _ (fun hh => hji hh.symm)] at he
        exact hplace j hj e he
    · intro j hj
      by_cases hji : j = bucketIdx h m.bucket_count k
      · subst hji
        rw [getBucket_set_self m _ _ _ hil, List.map_append, List.nodup_append]
        refine ⟨hnd _ hj, by simp, ?_⟩
        intro a ha ha2
        have hak : a = k := by simpa using ha2
        subst hak
        apply hdup
        rw [List.find?_isSome]
        rw [List.mem_map] at ha
        obtain ⟨e, he, hea⟩ := ha
        exact ⟨e, he, by simp [hea]⟩
      · rw [getBucket_set_ne m _ _ _ _ (fun hh => hji hh.symm)]
        exact hnd j hj

theorem WF_erase (h : Key → Nat) (m : Gen) (k : Key) (hwf : WF h m) :
    WF h (erase h m k).1 := by
  by_cases hdup :
      ((getBucket m (bucketIdx h m.bucket_count k)).find? (fun e => e.1 == k)).isSome = true
  · obtain ⟨hlen, hpos, hplace, hnd⟩ := hwf
    have hil : bucketIdx h m.bucket_count k < m.buckets.length := by
      rw [hlen]; exact Nat.mod_lt _ hpos
    have hres : (erase h m k).1 =
        Gen.mk m.bucket_count
          (m.buckets.set (bucketIdx h m.bucket_count k)
            ((getBucket m (bucketIdx h m.bucket_count k)).eraseP (fun e => e.1 == k))) := by
      simp [erase, hdup]
    rw [hres]
    refine ⟨by simp [hlen], hpos, ?_, ?_⟩
    · intro j hj e he
      by_cases hji : j = bucketIdx h m.bucket_count k
      · subst hji
        rw [getBucket_set_self m _ _ _ hil] at he
        exact hplace _ hj e ((List.eraseP_sublist _).subset he)
      · rw [getBucket_set_ne m _ _ _ _ (fun hh => hji hh.symm)] at he
        exact hplace j hj e he
    · intro j hj
      by_cases hji : j = bucketIdx h m.bucket_count k
      · subst hji
        rw [getBucket_set_self m _ _ _ hil]
        exact List.Nodup.sublist ((List.eraseP_sublist _).map Prod.fst) (hnd _ hj)
      · rw [getBucket_set_ne m _ _ _ _ (fun hh => hji hh.symm)]
        exact hnd j hj
  · simpa [erase, hdup] using hwf

theorem extract_fst_eq_erase_fst (h : Key → Nat) (m : Gen) (k : Key) :
    (extract h m k).1 = (erase h m k).1 := by
  simp only [extract, erase, findInBucket]
  cases hf : (getBucket m (bucketIdx h m.bucket_count k)).find? (fun e => e.1 == k) <;>
    simp [hf]

theorem getBucket_grow (h : Key → Nat) (m : Gen) (j : Nat) (hj : j < 2 * m.bucket_count) :
    getBucket (grow h m) j =
      (getBucket m (j % m.bucket_count)).filter
        (fun e => h e.1 % (2 * m.bucket_count) == j) := by
  rw [getBucket]
  show ((List.range (2 * m.bucket_count)).map fun i =>
      (getBucket m (i % m.bucket_count)).filter
        (fun e => h e.1 % (2 * m.bucket_count) == i)).getD j [] = _
  rw [List.getD_eq_getElem?_getD, List.getElem?_map, List.getElem?_range hj]
  rfl

theorem WF_grow (h : Key → Nat) (m : Gen) (hwf : WF h m) :
    WF h (grow h m) := by
  obtain ⟨hlen, hpos, _hplace, hnd⟩ := hwf
  have hbc : (grow h m).bucket_count = 2 * m.bucket_count := rfl
  refine ⟨by simp [grow], by rw [hbc]; omega, ?_, ?_⟩
  · intro j hj e he
    rw [hbc] at hj
    rw [getBucket_grow h m j hj, List.mem_filter] at he
    have : h e.1 % (2 * m.bucket_count) = j := by simpa using he.2
    rw [hbc]
    exact this
  · intro j hj
    rw [hbc] at hj
    rw [getBucket_grow h m j hj]
    exact List.Nodup.sublist ((List.filter_sublist _).map Prod.fst)
      (hnd _ (Nat.mod_lt _ hpos))

theorem contains_def2 (h : Key → Nat) (g : Gen) (n : Nat) (hg : g.bucket_count = n)
    (k : Key) :
    contains h g k = ((getBucket g (bucketIdx h n k)).find? (fun e => e.1 == k)).isSome := by
  subst hg
  exact contains_def h g k

theorem contains_emplace (h : Key → Nat) (m : Gen) (k : Key) (v : Value) (k2 : Key)
    (hwf : WF h m) :
    contains h (emplace h m k v).1 k2 = (contains h m k2 || (k == k2)) := by
  obtain ⟨hlen, hpos, _hplace, _hnd⟩ := hwf
  by_cases hdup :
      ((getBucket m (bucketIdx h m.bucket_count k)).find? (fun e => e.1 == k)).isSome = true
  · have hres : (emplace h m k v).1 = m := by simp [emplace, hdup]
    rw [hres]
    by_cases hkk : (k == k2) = true
    · have hk2 : k = k2 := by simpa using hkk
      subst hk2
      have hc : contains h m k = true := by rw [contains_def]; exact hdup
      simp [hc]
    · have hkk2 : (k == k2) = false := by simpa using hkk
      rw [hkk2, Bool.or_false]
  · have hil : bucketIdx h m.bucket_count k < m.buckets.length := by
      rw [hlen]; exact Nat.mod_lt _ hpos
    have hres : (emplace h m k v).1 =
        Gen.mk m.bucket_count
          (m.buckets.set (bucketIdx h m.bucket_count k)
            (getBucket m (bucketIdx h m.bucket_count k) ++ [(k, v)])) := by
      simp [emplace, hdup]
    have hgen := contains_def2 h
      (Gen.mk m.bucket_count
        (m.buckets.set (bucketIdx h m.bucket_count k)
          (getBucket m (bucketIdx h m.bucket_count k) ++ [(k, v)])))
      m.bucket_count rfl k2
    rw [hres, hgen, contains_def h m k2]
    by_cases hsame : bucketIdx h m.bucket_count k2 = bucketIdx h m.bucket_count k
    · rw [hsame, getBucket_set_self m _ _ _ hil, List.find?_append, Option.isSome_or]
      congr 1
      cases hkk : (k == k2) <;> simp [List.find?_cons, hkk]
    · have hne : bucketIdx h m.bucket_count k ≠ bucketIdx h m.bucket_count k2 :=
        fun hh => hsame hh.symm
      rw [getBucket_set_ne m _ _ _ _ hne]
      have hkk2 : (k == k2) = false := by
        cases hc : (k == k2)
        · rfl
        · have hk2 : k = k2 := by simpa using hc
          subst hk2
          exact absurd rfl hsame
      rw [hkk2, Bool.or_false]

theorem contains_erase (h : Key → Nat) (m : Gen) (k k2 : Key) (hwf : WF h m) :
    contains h (erase h m k).1 k2 = (contains h m k2 && !(k == k2)) := by
  obtain ⟨hlen, hpos, _hplace, hnd⟩ := hwf
  by_cases hdup :
      ((getBucket m (bucketIdx h m.bucket_count k)).find? (fun e => e.1 == k)).isSome = true
  · have hil : bucketIdx h m.bucket_count k < m.buckets.length := by
      rw [hlen]; exact Nat.mod_lt _ hpos
    have hres : (erase h m k).1 =
        Gen.mk m.bucket_count
          (m.buckets.set (bucketIdx h m.bucket_count k)
            ((getBucket m (bucketIdx h m.bucket_count k)).eraseP (fun e => e.1 == k))) := by
      simp [erase, hdup]
    have hgen := contains_def2 h
      (Gen.mk m.bucket_count
        (m.buckets.set (bucketIdx h m.bucket_count k)
          ((getBucket m (bucketIdx h m.bucket_count k)).eraseP (fun e => e.1 == k))))
      m.bucket_count rfl k2
    rw [hres, hgen, contains_def h m k2]
    by_cases hsame : bucketIdx h m.bucket_count k2 = bucketIdx h m.bucket_count k
    · rw [hsame, getBucket_set_self m _ _ _ hil]
      by_cases hkk : (k == k2) = true
      · have hk2 : k = k2 := by simpa using hkk
        subst hk2
        rw [find?_eraseP_key k (getBucket m (bucketIdx h m.bucket_count k))
          (hnd (bucketIdx h m.bucket_count k) (Nat.mod_lt _ hpos))]
        simp
      · have hkk2 : (k == k2) = false := by simpa using hkk
        have hne : k ≠ k2 := by simpa using hkk2
        have hfind := find?_eraseP_of_ne (fun e : Key × Value => e.1 == k)
            (fun e : Key × Value => e.1 == k2)
            (getBucket m (bucketIdx h m.bucket_count k))
            (by intro e he
                have he2 : e.1 = k2 := by simpa using he
                show (e.1 == k) = false
                rw [he2]
                simp [Ne.symm hne])
        rw [hfind, hkk2]
        simp
    · have hne : bucketIdx h m.bucket_count k ≠ bucketIdx h m.bucket_count k2 :=
        fun hh => hsame hh.symm
      rw [getBucket_set_ne m _ _ _ _ hne]
      have hkk2 : (k == k2) = false := by
        cases hc : (k == k2)
        · rfl
        · have hk2 : k = k2 := by simpa using hc
          subst hk2
          exact absurd rfl hsame
      rw [hkk2]
      simp
  · have hres : (erase h m k).1 = m := by simp [erase, hdup]
    rw [hres]
    by_cases hkk : (k == k2) = true
    · have hk2 : k = k2 := by simpa using hkk
      subst hk2
      have hc : contains h m k = false := by
        rw [contains_def]
        cases hb : ((getBucket m (bucketIdx h m.bucket_count k)).find?
            (fun e => e.1 == k)).isSome
        · rfl
        · exact absurd hb hdup
      simp [hc]
    · have hkk2 : (k == k2) = false := by simpa using hkk
      rw [hkk2]
      simp

theorem try_get_grow (h : Key → Nat) (m : Gen) (k : Key) (hwf : WF h m) :
    try_get_value h (grow h m) k = try_get_value h m k := by
  obtain ⟨hlen, hpos, _hplace, _hnd⟩ := hwf
  have h2 : 0 < 2 * m.bucket_count := by omega
  have hj : bucketIdx h (2 * m.bucket_count) k < 2 * m.bucket_count := Nat.mod_lt _ h2
  have e1 : try_get_value h (grow h m) k =
      findInBucket (getBucket (grow h m) (bucketIdx h (2 * m.bucket_count) k)) k := rfl
  rw [e1, getBucket_grow h m _ hj, findInBucket]
  have hfilter := find?_filter_of_imp
      (fun e : Key × Value =>
        h e.1 % (2 * m.bucket_count) == bucketIdx h (2 * m.bucket_count) k)
      (fun e : Key × Value => e.1 == k)
      (getBucket m (bucketIdx h (2 * m.bucket_count) k % m.bucket_count))
      (by intro e he
          have he2 : e.1 = k := by simpa using he
          show (h e.1 % (2 * m.bucket_count) == bucketIdx h (2 * m.bucket_count) k) = true
          rw [he2]
          simp [bucketIdx])
  rw [hfilter]
  have hmod : bucketIdx h (2 * m.bucket_count) k % m.bucket_count =
      bucketIdx h m.bucket_count k := by
    rw [bucketIdx, bucketIdx]
    exact Nat.mod_mod_of_dvd _ (dvd_mul_left _ _)
  rw [hmod]
  rfl

theorem contains_grow (h : Key → Nat) (m : Gen) (k : Key) (hwf : WF h m) :
    contains h (grow h m) k = contains h m k := by
  rw [contains, contains, try_get_grow h m k hwf]

theorem allEntries_grow (h : Key → Nat) (m : Gen) (e : Key × Value) (hwf : WF h m) :
    e ∈ allEntries (grow h m) ↔ e ∈ allEntries m := by
  obtain ⟨hlen, hpos, hplace, _hnd⟩ := hwf
  constructor
  · intro he
    rw [allEntries, List.mem_flatten] at he
    obtain ⟨l, hl, hel⟩ := he
    rw [show (grow h m).buckets =
        (List.range (2 * m.bucket_count)).map (fun i =>
          (getBucket m (i % m.bucket_count)).filter
            (fun x => h x.1 % (2 * m.bucket_count) == i)) from rfl] at hl
    rw [List.mem_map] at hl
    obtain ⟨j, _hjr, rfl⟩ := hl
    have hmem := (List.mem_filter.mp hel).1
    have hjn : j % m.bucket_count < m.buckets.length := by
      rw [hlen]; exact Nat.mod_lt _ hpos
    exact mem_allEntries_of_mem_getBucket m _ hjn hmem
  · intro he
    rw [allEntries, List.mem_flatten] at he
    obtain ⟨l, hl, hel⟩ := he
    rw [List.mem_iff_getElem] at hl
    obtain ⟨i, hilt, rfl⟩ := hl
    have hi2 : i < m.bucket_count := hlen ▸ hilt
    have heb : e ∈ getBucket m i := by
      rw [getBucket_lt m i hilt]; exact hel
    have hplaced := hplace i hi2 e heb
    have hj2 : h e.1 % (2 * m.bucket_count) < 2 * m.bucket_count :=
      Nat.mod_lt _ (by omega)
    rw [allEntries,
      show (grow h m).buckets =
        (List.range (2 * m.bucket_count)).map (fun i =>
          (getBucket m (i % m.bucket_count)).filter
            (fun x => h x.1 % (2 * m.bucket_count) == i)) from rfl,
      List.mem_flatten]
    refine ⟨_, List.mem_map_of_mem _ (List.mem_range.mpr hj2), ?_⟩
    rw [List.mem_filter]
    constructor
    · rw [Nat.mod_mod_of_dvd _ (dvd_mul_left _ _)]
      rw [show h e.1 % m.bucket_count = i from hplaced]
      exact heb
    · simp

theorem allKeys_grow_nodup (h : Key → Nat) (m : Gen) (hwf : WF h m) :
    (allKeys (grow h m)).Nodup := by
  obtain ⟨_hlen, hpos, _hplace, hnd⟩ := hwf
  rw [allKeys, allEntries, List.map_flatten]
  rw [show (grow h m).buckets =
      (List.range (2 * m.bucket_count)).map (fun i =>
        (getBucket m (i % m.bucket_count)).filter
          (fun x => h x.1 % (2 * m.bucket_count) == i)) from rfl]
  rw [List.map_map, List.nodup_flatten]
  constructor
  · intro l hl
    rw [List.mem_map] at hl
    obtain ⟨j, _hjr, rfl⟩ := hl
    simp only [Function.comp]
    exact List.Nodup.sublist ((List.filter_sublist _).map Prod.fst)
      (hnd _ (Nat.mod_lt _ hpos))
  · rw [List.pairwise_map]
    refine (List.pairwise_lt_range _).imp ?_
    intro a b hab
    simp only [Function.comp]
    intro x hxa hxb
    rw [List.mem_map] at hxa hxb
    obtain ⟨e1, he1, rfl⟩ := hxa
    obtain ⟨e2, he2, he2x⟩ := hxb
    have h1 : h e1.1 % (2 * m.bucket_count) = a := by
      simpa using (List.mem_filter.mp he1).2
    have h2 : h e2.1 % (2 * m.bucket_count) = b := by
      simpa using (List.mem_filter.mp he2).2
    rw [he2x] at h2
    omega

theorem WF_runOp (h : Key → Nat) (m : Gen) (op : Op) (hwf : WF h m) :
    WF h (runOp h m op) := by
  cases op with
  | emplaceOp k v => exact WF_emplace h m k v hwf
  | eraseOp k => exact WF_erase h m k hwf
  | extractOp k =>
      show WF h (extract h m k).1
      rw [extract_fst_eq_erase_fst]
      exact WF_erase h m k hwf
  | growOp => exact WF_grow h m hwf

theorem contains_runOp (h : Key → Nat) (m : Gen) (op : Op) (k : Key) (hwf : WF h m) :
    contains h (runOp h m op) k = specMemStep k (contains h m k) op := by
  cases op with
  | emplaceOp k1 v => exact contains_emplace h m k1 v k hwf
  | eraseOp k1 => exact contains_erase h m k1 k hwf
  | extractOp k1 =>
      show contains h (extract h m k1).1 k = _
      rw [extract_fst_eq_erase_fst]
      exact contains_erase h m k1 k hwf
  | growOp => exact contains_grow h m k hwf

theorem contains_run (h : Key → Nat) (ops : List Op) :
    ∀ m : Gen, WF h m → ∀ k : Key,
      contains h (run h m ops) k = specMem k (contains h m k) ops := by
  induction ops with
  | nil => intro m _ k; rfl
  | cons op t ih =>
      intro m hwf k
      have hwf2 := WF_runOp h m op hwf
      have hstep := contains_runOp h m op k hwf
      show contains h (run h (runOp h m op) t) k
          = specMem k (specMemStep k (contains h m k) op) t
      rw [← hstep]
      exact ih (runOp h m op) hwf2 k

/-- C1 (amended): with growth steps allowed at any point of the history — which
covers every possible moment a full bucket can force a growth — the set of keys
retrievable through `try_get_value`/`contains` at the end is exactly the sequential
fold of the operations' specification-level effects (successful inserts add the
key, successful removals delete it) over the initial membership, independent of
when growths occurred; and the grow step's re-partition of entries into the new
generation preserves the entry set exactly (never loses an entry, never invents
one) and never creates a duplicate key. The claim's literal set formula (keys whose
emplace returned true minus keys successfully removed) additionally requires that
no removed key is re-inserted later; `c1_counterexample` shows it fails otherwise. -/
theorem c1_growth_preserves_membership (h : Key → Nat) (m : Gen) (ops : List Op)
    (k : Key) (e : Key × Value) (hwf : WF h m) :
    contains h (run h m ops) k = specMem k (contains h m k) ops ∧
    (e ∈ allEntries (grow h m) ↔ e ∈ allEntries m) ∧
    (allKeys (grow h m)).Nodup :=
  ⟨contains_run h ops m hwf k, allEntries_grow h m e hwf, allKeys_grow_nodup h m hwf⟩

/-- Witness for `c1_growth_preserves_membership` on a concrete history containing a
growth between two inserts and a removal. -/
theorem c1_growth_preserves_membership_witness :
    WF (fun a => a) (allocate_block 2) ∧
    (contains (fun a => a)
        (run (fun a => a) (allocate_block 2)
          [Op.emplaceOp 1 5, Op.growOp, Op.emplaceOp 2 6, Op.eraseOp 1]) 1 =
      specMem 1 (contains (fun a => a) (allocate_block 2) 1)
        [Op.emplaceOp 1 5, Op.growOp, Op.emplaceOp 2 6, Op.eraseOp 1] ∧
     ((3, 9) ∈ allEntries (grow (fun a => a) (allocate_block 2)) ↔
        (3, 9) ∈ allEntries (allocate_block 2)) ∧
     (allKeys (grow (fun a => a) (allocate_block 2))).Nodup) := by
  have hwf : WF (fun a => a) (allocate_block 2) := by
    simp only [WF]; decide
  exact ⟨hwf, c1_growth_preserves_membership (fun a => a) (allocate_block 2)
    [Op.emplaceOp 1 5, Op.growOp, Op.emplaceOp 2 6, Op.eraseOp 1] 1 (3, 9) hwf⟩

/-- Counterexample to C1 exactly as stated: in the history emplace 0, grow,
erase 0, emplace 0 (which contains a growth), key 0 is retrievable at the end, yet
it is both in the successfully-inserted key list and in the successfully-removed
key list, so the claim's predicted set — successfully inserted minus successfully
removed — is empty and does not contain the retrievable key 0. -/
theorem c1_counterexample :
    contains (fun a => a)
        (runLog (fun a => a) (allocate_block 2)
          [Op.emplaceOp 0 0, Op.growOp, Op.eraseOp 0, Op.emplaceOp 0 1]).1 0 = true ∧
    0 ∈ (runLog (fun a => a) (allocate_block 2)
          [Op.emplaceOp 0 0, Op.growOp, Op.eraseOp 0, Op.emplaceOp 0 1]).2.1 ∧
    0 ∈ (runLog (fun a => a) (allocate_block 2)
          [Op.emplaceOp 0 0, Op.growOp, Op.eraseOp 0, Op.emplaceOp 0 1]).2.2 ∧
    ((runLog (fun a => a) (allocate_block 2)
          [Op.emplaceOp 0 0, Op.growOp, Op.eraseOp 0, Op.emplaceOp 0 1]).2.1.filter
        (fun b => !((runLog (fun a => a) (allocate_block 2)
          [Op.emplaceOp 0 0, Op.growOp, Op.eraseOp 0, Op.emplaceOp 0 1]).2.2.contains b)))
      = [] := by
  decide

end xenium
